import Mathlib

/-!
Shallow embedding of the `dox_agent` control loop (repository
`7etsuo/tetsuo-dox-agent`), covering:

* `src/dox_agent/graph/builder.py` — `create_event_loop` / `event_loop` and the
  graph wiring of `create_graph`;
* `src/dox_agent/graph/nodes.py` — `draft_node` input normalization and
  `execute_tools_node`;
* `src/dox_agent/cli.py` — `update_settings`, `parse_reference`,
  `format_reference`;
* `src/dox_agent/config/settings.py` — the `Settings` record.

External collaborators (the LLM completion chains, the Tavily search service,
the LangChain JSON tool-call parser) are modelled as parameters/oracles: the
embedding covers exactly the code the repository owns.
-/

namespace DoxAgent

/-- A turn of the message history, as in `langchain_core.messages`: the code
distinguishes turns by runtime type; only three shapes occur in this system.
`tool` carries a content string and a `tool_call_id`, matching `ToolMessage`. -/
inductive Message where
  | human : String → Message
  | ai : String → Message
  | tool : String → String → Message
  deriving DecidableEq, Repr

/-- The check `isinstance(item, ToolMessage)` from `builder.py::event_loop`. -/
def isToolMessage : Message → Bool
  | .tool _ _ => true
  | _ => false

/-- The count `count_tool_visits = sum(isinstance(item, ToolMessage) for item in state)`
(`src/dox_agent/graph/builder.py`, line 35). -/
def count_tool_visits (state : List Message) : Nat :=
  state.countP isToolMessage

/-- The nodes of the `MessageGraph` built by `create_graph`, plus the
framework's `END` sentinel. -/
inductive Node where
  | draft
  | execute_tools
  | revise
  | END
  deriving DecidableEq, Repr

/-- The function `src/dox_agent/graph/builder.py::event_loop` (the callback produced by
`create_event_loop(max_iterations)`): count the `ToolMessage` turns in the
state; return `END` when the count strictly exceeds `max_iterations`,
otherwise route to `execute_tools`.  `max_iterations` is a Python `int`,
hence `Int` here. -/
def event_loop (max_iterations : Int) (state : List Message) : Node :=
  if (count_tool_visits state : Int) > max_iterations then .END
  else .execute_tools

/-- The entry point set by `builder.set_entry_point("draft")` in
`create_graph`. -/
def graph_entry : Node := .draft

/-- The transition structure of the compiled graph from `create_graph`:
`draft → execute_tools` and `execute_tools → revise` are the unconditional
`add_edge` calls; out of `revise` the conditional edge defers to
`event_loop`; `END` has no successor. -/
def graph_step (max_iterations : Int) (state : List Message) :
    Node → Option Node
  | .draft => some .execute_tools
  | .execute_tools => some .revise
  | .revise => some (event_loop max_iterations state)
  | .END => none

/-- One execution of the cyclic part of the compiled graph, starting just
after DRAFT.  Each cycle is one `execute_tools` pass (appending the turn
`toolTurn n`) followed by one `revise` pass (appending `reviseTurn n`), after
which `event_loop` decides between `END` and another cycle.  `fuel` bounds the
recursion; the result is the number of revise cycles performed, or `none` if
the fuel ran out before `event_loop` chose `END`. -/
def run_loop (max_iterations : Int) (toolTurn reviseTurn : Nat → Message) :
    Nat → List Message → Nat → Option Nat
  | 0, _, _ => none
  | fuel + 1, state, cycles =>
      if event_loop max_iterations ((state ++ [toolTurn cycles]) ++ [reviseTurn cycles]) =
          Node.END then
        some (cycles + 1)
      else
        run_loop max_iterations toolTurn reviseTurn fuel
          ((state ++ [toolTurn cycles]) ++ [reviseTurn cycles]) (cycles + 1)

/-- The `Settings` record of `src/dox_agent/config/settings.py`. -/
structure Settings where
  OPENAI_API_KEY : String
  TAVILY_API_KEY : String
  LANGCHAIN_API_KEY : Option String
  LANGCHAIN_TRACING_V2 : Option Bool
  LANGCHAIN_PROJECT : Option String
  MAX_ITERATIONS : Int
  MODEL_NAME : String
  MAX_RESULTS : Int
  deriving DecidableEq, Repr

/-- The function `src/dox_agent/cli.py::update_settings`: assign each of the three fields
only when the corresponding CLI argument is not `None`.  The Python function
mutates the global `settings` object; the embedding passes the record
explicitly. -/
def update_settings (s : Settings) (max_iterations : Option Int)
    (model : Option String) (max_results : Option Int) : Settings :=
  let s1 := match max_iterations with
    | some v => { s with MAX_ITERATIONS := v }
    | none => s
  let s2 := match model with
    | some v => { s1 with MODEL_NAME := v }
    | none => s1
  match max_results with
  | some v => { s2 with MAX_RESULTS := v }
  | none => s2

/-- An element of the runtime `state` value handed to `draft_node`: Python
gives no static guarantee, so a list element is either a `str` or a message
object. -/
inductive StateEntry where
  | str : String → StateEntry
  | msg : Message → StateEntry
  deriving DecidableEq, Repr

/-- The runtime value handed to `draft_node`: a `str`, a `list`, or anything
else (`other`), mirroring the `isinstance` dispatch in the code. -/
inductive DraftInput where
  | ofString : String → DraftInput
  | ofList : List StateEntry → DraftInput
  | other : DraftInput
  deriving DecidableEq, Repr

/-- The error taxonomy of spec §7 as it is realized by the code: `draft_node`
raises `ValueError` (spec name `InvalidState`); a search failure propagates
the tool's exception (spec name `SearchError`). -/
inductive DoxError where
  | invalidState : String → DoxError
  | searchError : String → DoxError
  deriving DecidableEq, Repr

/-- The input-normalization prefix of `src/dox_agent/graph/nodes.py::draft_node`
(lines 30–52), up to but not including the external `first_responder.invoke`
call: a `str` becomes a single `HumanMessage`; an empty list raises
`ValueError("Empty state received")`; a list whose last element is a `str`
becomes a single `HumanMessage` of that element; any other list is passed
through unchanged; any non-`str` non-`list` raises
`ValueError("Unexpected state type")`. -/
def draft_normalize : DraftInput → Except DoxError (List StateEntry)
  | .ofString s => .ok [.msg (.human s)]
  | .ofList [] => .error (.invalidState "Empty state received")
  | .ofList l =>
      match l.getLast? with
      | some (.str s) => .ok [.msg (.human s)]
      | _ => .ok l
  | .other => .error (.invalidState "Unexpected state type")

/-- One parsed tool call as produced by `parser.invoke` (the LangChain
`JsonOutputToolsParser` with `return_id=True`) on the last `AIMessage`:
the code reads `parsed_call["id"]` and
`parsed_call["args"]["search_queries"]`. -/
structure ParsedCall where
  id : String
  search_queries : List String
  deriving DecidableEq, Repr

/-- Python `dict` assignment `m[k] = v` on an insertion-ordered association
list: an existing key keeps its position and gets the new value; a new key is
appended at the end.  This is the semantics `defaultdict`/`dict` give the
maps built in `execute_tools_node` and by `literal_eval` on dict displays. -/
def dictInsert {β : Type} (m : List (String × β)) (k : String) (v : β) :
    List (String × β) :=
  match m with
  | [] => [(k, v)]
  | p :: rest => if p.1 = k then (k, v) :: rest else p :: dictInsert rest k v

/-- Python `k in m` / lookup on an insertion-ordered association list with
unique keys. -/
def dictFind? {β : Type} (m : List (String × β)) (k : String) : Option β :=
  (m.find? (fun p => p.1 = k)).map (fun p => p.2)

/-- Python `m.get(k, d)`. -/
def dictGetD {β : Type} (m : List (String × β)) (k : String) (d : β) : β :=
  (dictFind? m k).getD d

/-- The keys of an association list, in order. -/
def dictKeys {β : Type} (m : List (String × β)) : List String :=
  m.map Prod.fst

/-- The `ids` / `tool_invocations` lists of `execute_tools_node` (built in
lockstep, here paired): one entry `(proposal id, query)` per query of each
parsed call, in batch order.  Each entry corresponds to exactly one
`search_tool.execute` call. -/
def tool_invocations (calls : List ParsedCall) : List (String × String) :=
  calls.flatMap (fun c => c.search_queries.map (fun q => (c.id, q)))

/-- The number of search calls issued by one EXECUTE_TOOLS pass: the length
of the `tool_invocations` list, over which the code maps
`search_tool.execute`. -/
def searchCallCount (calls : List ParsedCall) : Nat :=
  (tool_invocations calls).length

/-- The `outputs` list comprehension of `execute_tools_node`: run the search
oracle left to right over the indexed queries; the first raised exception
aborts the whole pass (Python list-comprehension semantics).  The oracle
takes the call index so that two calls with the same query string may
legitimately return different payloads. -/
def collectOutputs {ε α : Type} (search : Nat → String → Except ε α) :
    List (Nat × String) → Except ε (List α)
  | [] => .ok []
  | (i, q) :: rest =>
      match search i q with
      | .error e => .error e
      | .ok out =>
          match collectOutputs search rest with
          | .error e => .error e
          | .ok outs => .ok (out :: outs)

/-- A `ToolMessage` as returned by `execute_tools_node`: the aggregated
per-query results for one proposal id (the code serializes `content` with
`json.dumps`; the embedding keeps the mapping itself) tagged with
`tool_call_id`. -/
structure ToolMessageM (α : Type) where
  content : List (String × α)
  tool_call_id : String
  deriving DecidableEq, Repr

/-- The `outputs_map` construction of `execute_tools_node`:
`outputs_map = defaultdict(dict)` then, for each zipped
`(id_, output, invocation)`, `outputs_map[id_][invocation.tool_input] = output`.
A missing outer key is created (appended) with an empty inner dict. -/
def outputs_map {α : Type} (entries : List ((String × String) × α)) :
    List (String × List (String × α)) :=
  entries.foldl
    (fun m e => dictInsert m e.1.1 (dictInsert (dictGetD m e.1.1 []) e.1.2 e.2))
    []

/-- The function `src/dox_agent/graph/nodes.py::execute_tools_node` (lines 55–97), given
the parsed tool calls of the last `AIMessage` (the LangChain parser is an
external boundary) and the search service as an oracle: build the invocation
list, execute every search, group outputs by proposal id and query, and
return one `ToolMessage` per entry of `outputs_map`. -/
def execute_tools_node {ε α : Type} (search : Nat → String → Except ε α)
    (calls : List ParsedCall) : Except ε (List (ToolMessageM α)) :=
  match collectOutputs search ((tool_invocations calls).enum.map (fun p => (p.1, p.2.2))) with
  | .error e => .error e
  | .ok outputs =>
      .ok ((outputs_map ((tool_invocations calls).zip outputs)).map
        (fun p => { content := p.2, tool_call_id := p.1 }))

/-- A search oracle that never fails, from a total result function: used to
state the claims that assume every search call succeeds. -/
def searchOk {α : Type} (f : Nat → String → α) :
    Nat → String → Except String α :=
  fun i q => .ok (f i q)

/-- The single-quote character, written by code point to keep the source free
of quote characters. -/
def squote : Char := Char.ofNat 39

/-- The double-quote character, by code point. -/
def dquote : Char := Char.ofNat 34

/-- The backslash character, by code point. -/
def backslash : Char := Char.ofNat 92

/-- The left-brace character, by code point. -/
def lbrace : Char := Char.ofNat 123

/-- The right-brace character, by code point. -/
def rbrace : Char := Char.ofNat 125

/-- The whitespace set of Python str.strip / str.isspace: ASCII 0x09-0x0D,
0x1C-0x1F, space, 0x85, 0xA0, and the Unicode space separators (0x1680,
0x2000-0x200A, 0x2028, 0x2029, 0x202F, 0x205F, 0x3000). -/
def isPyStripWs (c : Char) : Bool :=
  [9, 10, 11, 12, 13, 28, 29, 30, 31, 32, 133, 160, 5760, 8192, 8193, 8194,
    8195, 8196, 8197, 8198, 8199, 8200, 8201, 8202, 8232, 8233, 8239, 8287,
    12288].contains c.toNat

/-- Whitespace the Python tokenizer skips between tokens inside a bracketed
literal: space, tab, formfeed, and — by implicit line joining inside braces —
newline and carriage return. -/
def isPyTokenWs (c : Char) : Bool :=
  c = ' ' || c = '\t' || c = '\n' || c = '\r' || c.toNat = 12

/-- Drop token-level whitespace. -/
def skipTokWs (cs : List Char) : List Char :=
  cs.dropWhile isPyTokenWs

/-- A Python value as far as `format_reference` can observe it: a `dict` with
string keys (insertion-ordered, duplicate keys resolved like the Python dict
display) or a `set`.  Dict values and set elements are stored as their Python
`str()` renderings, because the formatter only ever interpolates values into
an f-string, and it only compares keys and set elements against the string
constants `"Author"` and `"text"`, which no non-string literal renders equal
to. -/
inductive PyVal where
  | dict : List (String × String) → PyVal
  | set : List String → PyVal
  deriving DecidableEq, Repr

/-- Result of scanning one scalar token of a brace literal: `ok isStr r rest`
yields the token's value as its Python `str()` rendering `r` (with `isStr`
marking a string literal) and the remaining input; `fail` marks input on
which `ast.literal_eval` certainly raises; `unknown` marks input outside the
modelled fragment, about which the embedding asserts nothing. -/
inductive ScalarTok where
  | ok : Bool → String → List Char → ScalarTok
  | fail : ScalarTok
  | unknown : ScalarTok
  deriving Repr

/-- Scan a string literal after its opening quote `qc`: Python raises a
`SyntaxError` on a quote left unterminated (`fail`, also when a newline
intervenes before the closing quote); escape sequences are outside the
fragment (`unknown`). -/
def scanPyString (qc : Char) (cs : List Char) : ScalarTok :=
  let content := cs.takeWhile (fun d => d ≠ qc)
  match cs.dropWhile (fun d => d ≠ qc) with
  | [] => .fail
  | _ :: rest =>
      if content.any (fun d => d = '\n' || d = '\r') then .fail
      else if content.contains backslash then .unknown
      else .ok true (String.mk content) rest

/-- Scan a decimal integer after an optional sign (already consumed); the
rendering is Python `str()` of the value.  Leading zeros, digit separators,
float/complex continuations and name adjacency are left `unknown`. -/
def scanPyIntDigits (neg : Bool) (cs : List Char) : ScalarTok :=
  let digits := cs.takeWhile Char.isDigit
  let rest := cs.dropWhile Char.isDigit
  if digits.isEmpty then .unknown
  else if digits.length > 1 && digits.headD ' ' = '0' then .unknown
  else
    let cont : Bool := match rest with
      | [] => false
      | d :: _ =>
          d = '.' || d = 'e' || d = 'E' || d = 'j' || d = 'J' || d = '_' ||
            d.isAlphanum || d.toNat > 127
    if cont then .unknown
    else
      let n : Nat := digits.foldl (fun a c => a * 10 + (c.toNat - 48)) 0
      .ok false (toString (if neg then -(n : Int) else (n : Int))) rest

/-- ASCII identifier characters. -/
def isIdentChar (c : Char) : Bool :=
  c = '_' || c.isAlphanum

/-- Scan an identifier-like token: the keyword literals `True`/`False`/`None`
render as their `str()`; any other name makes `ast.literal_eval` raise
`ValueError` (malformed node), hence `fail`. -/
def scanPyIdent (cs : List Char) : ScalarTok :=
  let ident := cs.takeWhile isIdentChar
  let rest := cs.dropWhile isIdentChar
  let nonAscii : Bool := match rest with
    | [] => false
    | d :: _ => d.toNat > 127
  if nonAscii then .unknown
  else if String.mk ident = "True" then .ok false "True" rest
  else if String.mk ident = "False" then .ok false "False" rest
  else if String.mk ident = "None" then .ok false "None" rest
  else .fail

/-- Scan one scalar token of a brace literal: a single- or double-quoted
plain string, an optionally signed decimal integer, or one of
`True`/`False`/`None`.  Exhausted input where a value is required is a
certain `SyntaxError` (`fail`); anything else (floats, nested literals,
non-ASCII name continuations, ...) is `unknown`. -/
def parsePyScalar : List Char → ScalarTok
  | [] => .fail
  | c :: rest =>
      if c = squote || c = dquote then scanPyString c rest
      else if c = '-' then scanPyIntDigits true rest
      else if c = '+' then scanPyIntDigits false rest
      else if c.isDigit then scanPyIntDigits false (c :: rest)
      else if c = '_' || c.isAlpha then scanPyIdent (c :: rest)
      else .unknown

/-- Outcome of a tail parser: `done v rest`, a certain `fail`, or
`unknown`. -/
inductive PartialParse (γ : Type) where
  | done : γ → List Char → PartialParse γ
  | fail : PartialParse γ
  | unknown : PartialParse γ
  deriving Repr

/-- Parse the remaining `, 'k': v` items of a dict display up to the closing
brace (trailing comma allowed); duplicate keys overwrite like the Python dict
display; non-string keys are outside the fragment. -/
def parsePyDictTail (fuel : Nat) (cs : List Char)
    (acc : List (String × String)) : PartialParse (List (String × String)) :=
  match fuel with
  | 0 => .unknown
  | fuel + 1 =>
      match skipTokWs cs with
      | [] => .fail
      | c :: rest =>
          if c = rbrace then .done acc rest
          else if c = ',' then
            match skipTokWs rest with
            | [] => .fail
            | d :: rest1 =>
                if d = rbrace then .done acc rest1
                else
                  match parsePyScalar (d :: rest1) with
                  | .ok true k cs1 =>
                      (match skipTokWs cs1 with
                       | [] => .fail
                       | e :: cs2 =>
                           if e = ':' then
                             match parsePyScalar (skipTokWs cs2) with
                             | .ok _ v cs3 =>
                                 parsePyDictTail fuel cs3 (dictInsert acc k v)
                             | .fail => .fail
                             | .unknown => .unknown
                           else .unknown)
                  | .ok false _ _ => .unknown
                  | .fail => .fail
                  | .unknown => .unknown
          else .unknown

/-- Parse the remaining `, e` elements of a set display up to the closing
brace (trailing comma allowed); duplicate renderings collapse like a Python
set — only membership of the renderings matters to the formatter. -/
def parsePySetTail (fuel : Nat) (cs : List Char)
    (acc : List String) : PartialParse (List String) :=
  match fuel with
  | 0 => .unknown
  | fuel + 1 =>
      match skipTokWs cs with
      | [] => .fail
      | c :: rest =>
          if c = rbrace then .done acc rest
          else if c = ',' then
            match skipTokWs rest with
            | [] => .fail
            | d :: rest1 =>
                if d = rbrace then .done acc rest1
                else
                  match parsePyScalar (d :: rest1) with
                  | .ok _ e cs1 =>
                      parsePySetTail fuel cs1
                        (if acc.contains e then acc else acc ++ [e])
                  | .fail => .fail
                  | .unknown => .unknown
          else .unknown

/-- Outcome of evaluating `ast.literal_eval` on the modelled fragment:
`val v` and `fail` assert the real result (a value, or a raised exception);
`unknown` marks input the fragment does not decide, about which no theorem
of this file asserts anything. -/
inductive LiteralOutcome where
  | val : PyVal → LiteralOutcome
  | fail : LiteralOutcome
  | unknown : LiteralOutcome
  deriving DecidableEq, Repr

/-- Accept only whitespace after the closing brace: Python allows trailing
blanks and newlines before the end of an `eval`-mode expression, while any
other trailing token (e.g. a comma, which would build a tuple) is outside
the fragment. -/
def finishLiteral (v : PyVal) (rest : List Char) : LiteralOutcome :=
  if (rest.dropWhile isPyTokenWs).isEmpty then .val v else .unknown

/-- A sound evaluator for `ast.literal_eval` on brace displays whose scalars
are plain single- or double-quoted strings, decimal integers, or
`True`/`False`/`None` (`literal_eval` itself strips only blanks and tabs
before parsing, hence the restricted leading skip).  `val` and `fail`
faithfully report the real outcome on this fragment; every input the
fragment does not decide — nested literals, floats, escape sequences,
non-string keys, trailing tokens, adjacent string concatenation, ... — is
reported `unknown`, never as a failure. -/
def literalEvalFragment (s : String) : LiteralOutcome :=
  match s.data.dropWhile (fun c => c = ' ' || c = '\t') with
  | [] => .unknown
  | c :: rest =>
      if c = lbrace then
        match skipTokWs rest with
        | [] => .fail
        | d :: rest1 =>
            if d = rbrace then finishLiteral (.dict []) rest1
            else
              match parsePyScalar (d :: rest1) with
              | .ok isStr s0 cs1 =>
                  (match skipTokWs cs1 with
                   | [] => .fail
                   | e :: cs2 =>
                       if e = ':' then
                         if isStr then
                           match parsePyScalar (skipTokWs cs2) with
                           | .ok _ v0 cs3 =>
                               (match parsePyDictTail s.length cs3 [(s0, v0)] with
                                | .done m restEnd => finishLiteral (.dict m) restEnd
                                | .fail => .fail
                                | .unknown => .unknown)
                           | .fail => .fail
                           | .unknown => .unknown
                         else .unknown
                       else
                         match parsePySetTail s.length cs1 [s0] with
                         | .done elems restEnd => finishLiteral (.set elems) restEnd
                         | .fail => .fail
                         | .unknown => .unknown)
              | .fail => .fail
              | .unknown => .unknown
      else .unknown

/-- The test `ref.strip().startswith("\x7b")` from `parse_reference`, with
the whitespace set of Python str.strip: the first non-whitespace character
is a left brace. -/
def stripStartsWithBrace (ref : String) : Bool :=
  match ref.data.dropWhile isPyStripWs with
  | c :: _ => c = lbrace
  | [] => false

/-- The function `src/dox_agent/cli.py::parse_reference` (lines 62–78): when
the stripped string starts with a brace, hand it to the standard library's
`ast.literal_eval` and return whatever value that produces; on a parse
failure — or when the string does not look like a dict — fall back to
`\x7b"text": ref\x7d`.  Like the search service in `execute_tools_node`, the
stdlib call is abstracted as the oracle argument `literal_eval` (`none`
models its exception path); the executable `literalEvalFragment` certifies
the oracle's value on the concrete strings the theorems evaluate. -/
def parse_reference (literal_eval : String → Option PyVal) (ref : String) :
    PyVal :=
  if stripStartsWithBrace ref then
    match literal_eval ref with
    | some v => v
    | none => .dict [("text", ref)]
  else .dict [("text", ref)]

/-- The function `src/dox_agent/cli.py::format_reference` (lines 81–104) on a
string reference: parse it; a dict containing `"Author"` is rendered as
`[i] author - title - url (date)` with `.get` defaults, any other dict as
`[i]` followed by its `"text"` entry (default: the original string).  When
`literal_eval` produced a set, both branches call `.get` on it and Python
raises `AttributeError`; the embedding returns that as an error.  The
dict-shaped branch of the code (which always returns a formatted string) is
factored into `format_dict_reference`. -/
def format_dict_reference (m : List (String × String)) (ref : String)
    (index : Nat) : String :=
  if (dictFind? m "Author").isSome then
    let author := dictGetD m "Author" "No Author"
    let title := dictGetD m "Title" "No Title"
    let url := dictGetD m "URL" "No URL"
    let date := dictGetD m "Date" "N/A"
    "[" ++ toString index ++ "] " ++ author ++ " - " ++ title ++
      " - " ++ url ++ " (" ++ date ++ ")"
  else
    "[" ++ toString index ++ "] " ++ dictGetD m "text" ref

def format_reference (literal_eval : String → Option PyVal) (ref : String)
    (index : Nat) : Except String String :=
  match parse_reference literal_eval ref with
  | .dict m => .ok (format_dict_reference m ref index)
  | .set _ => .error "AttributeError: set object has no attribute get"

/-- Helper to write the single-quoted test strings without quote characters
in the source: wrap `s` in single quotes. -/
def pyQuoted (s : String) : String :=
  String.mk (squote :: (s.data ++ [squote]))

/-- Helper: wrap `s` in braces. -/
def braceWrap (s : String) : String :=
  String.mk (lbrace :: (s.data ++ [rbrace]))

/-- Helper: one `'k': 'v'` pair of a dict display. -/
def pyPair (k v : String) : String :=
  pyQuoted k ++ ": " ++ pyQuoted v

/-- The structured reference string of spec §8:
`\x7b'Author': 'A', 'Title': 'T', 'URL': 'u', 'Date': 'd'\x7d`. -/
def exampleStructuredRef : String :=
  braceWrap (pyPair "Author" "A" ++ ", " ++ pyPair "Title" "T" ++ ", " ++
    pyPair "URL" "u" ++ ", " ++ pyPair "Date" "d")

/-- The value `ast.literal_eval` returns on `exampleStructuredRef`. -/
def exampleStructuredVal : PyVal :=
  .dict [("Author", "A"), ("Title", "T"), ("URL", "u"), ("Date", "d")]

/-- A brace literal that `literal_eval` reads as a one-element set:
`\x7b'Author'\x7d`. -/
def exampleSetRef : String :=
  braceWrap (pyQuoted "Author")

/-- The value `ast.literal_eval` returns on `exampleSetRef`. -/
def exampleSetVal : PyVal := .set ["Author"]

/-- A dict display with a non-string (integer) value: `\x7b'Author': 1\x7d`. -/
def exampleIntRef : String :=
  braceWrap (pyQuoted "Author" ++ ": 1")

/-- The value `ast.literal_eval` returns on `exampleIntRef`, the integer
stored as its `str()` rendering. -/
def exampleIntVal : PyVal := .dict [("Author", "1")]

/-- A truncated brace literal, `\x7b'Author` (no closing quote or brace), on
which `ast.literal_eval` certainly raises. -/
def exampleTruncRef : String :=
  String.mk (lbrace :: (squote :: "Author".data))

/-! Dictionary and fold lemmas -/

theorem dictKeys_dictInsert {β : Type} (m : List (String × β)) (k : String) (v : β) :
    dictKeys (dictInsert m k v) =
      if k ∈ dictKeys m then dictKeys m else dictKeys m ++ [k] := by
  induction m with
  | nil => simp [dictInsert, dictKeys]
  | cons p m ih =>
      by_cases hpk : p.1 = k
      · simp [dictInsert, dictKeys, hpk]
      · simp only [dictInsert, if_neg hpk]
        simp only [dictKeys, List.map_cons] at ih ⊢
        rw [ih]
        by_cases hk : k ∈ List.map Prod.fst m
        · simp [hk, Ne.symm hpk]
        · simp [hk, Ne.symm hpk]

theorem mem_dictKeys_dictInsert {β : Type} (m : List (String × β)) (k : String)
    (v : β) (a : String) :
    a ∈ dictKeys (dictInsert m k v) ↔ a ∈ dictKeys m ∨ a = k := by
  rw [dictKeys_dictInsert]
  by_cases h : k ∈ dictKeys m
  · rw [if_pos h]
    exact ⟨Or.inl, fun ha => ha.elim id (fun e => e ▸ h)⟩
  · rw [if_neg h]
    simp

theorem nodup_dictKeys_dictInsert {β : Type} (m : List (String × β)) (k : String)
    (v : β) (h : (dictKeys m).Nodup) :
    (dictKeys (dictInsert m k v)).Nodup := by
  rw [dictKeys_dictInsert]
  split
  · exact h
  · next hk => simp [List.nodup_append, h, hk]

theorem dictFind?_dictInsert {β : Type} (m : List (String × β)) (k : String)
    (v : β) (a : String) :
    dictFind? (dictInsert m k v) a = if a = k then some v else dictFind? m a := by
  induction m with
  | nil =>
      by_cases h : a = k
      · simp [dictInsert, dictFind?, List.find?, h]
      · have h2 : ¬(k = a) := fun hh => h hh.symm
        simp [dictInsert, dictFind?, List.find?, h, h2]
  | cons p m ih =>
      by_cases hpk : p.1 = k
      · subst hpk
        by_cases hak : a = p.1
        · simp [dictInsert, dictFind?, List.find?, hak]
        · have h1 : ¬(p.1 = a) := fun hh => hak hh.symm
          simp [dictInsert, dictFind?, List.find?, hak, h1]
      · by_cases hpa : p.1 = a
        · have hak : ¬(a = k) := fun h => hpk (hpa.trans h)
          simp [dictInsert, dictFind?, List.find?, hpk, hpa, hak]
        · simp only [dictFind?] at ih
          simp [dictInsert, dictFind?, List.find?, hpk, hpa, ih]

theorem dictFind?_isSome_iff_mem_keys {β : Type} (m : List (String × β)) (a : String) :
    (dictFind? m a).isSome ↔ a ∈ dictKeys m := by
  induction m with
  | nil => simp [dictFind?, dictKeys]
  | cons p m ih =>
      by_cases hpa : p.1 = a
      · simp [dictFind?, dictKeys, List.find?, hpa]
      · simp only [dictFind?] at ih
        simp [dictFind?, dictKeys, List.find?, hpa, Ne.symm hpa, ih]

/-- Looking up a key after folding Python dict assignments over a pair list:
the result is the value of the last pair carrying that key, or the original
binding when no pair carries it. -/
theorem dictFind?_foldl_dictInsert {β : Type} (ps : List (String × β))
    (m0 : List (String × β)) (a : String) :
    dictFind? (ps.foldl (fun m p => dictInsert m p.1 p.2) m0) a =
      ((ps.filter (fun p => p.1 = a)).getLast?.map Prod.snd).or (dictFind? m0 a) := by
  induction ps using List.reverseRecOn with
  | nil => simp
  | append_singleton ps p ih =>
      rw [List.foldl_append, List.filter_append]
      simp only [List.foldl_cons, List.foldl_nil]
      rw [dictFind?_dictInsert]
      by_cases hp : p.1 = a
      · rw [if_pos hp.symm]
        simp [List.filter_cons, hp, List.getLast?_concat]
      · rw [if_neg (fun h => hp h.symm)]
        simp [List.filter_cons, hp, ih]

theorem collectOutputs_searchOk {α : Type} (f : Nat → String → α)
    (l : List (Nat × String)) :
    collectOutputs (searchOk f) l = .ok (l.map (fun p => f p.1 p.2)) := by
  induction l with
  | nil => rfl
  | cons p rest ih =>
      cases p with
      | mk i q => simp [collectOutputs, searchOk, ih]

theorem collectOutputs_error_of_mem {ε α : Type} (search : Nat → String → Except ε α)
    (l : List (Nat × String)) (h : ∃ p ∈ l, ∃ e, search p.1 p.2 = .error e) :
    ∃ e2, collectOutputs search l = .error e2 := by
  induction l with
  | nil =>
      rcases h with ⟨p, hp, _⟩
      exact absurd hp (List.not_mem_nil p)
  | cons p0 rest ih =>
      rcases h with ⟨p, hp, e, he⟩
      rcases p0 with ⟨i, q⟩
      rcases hs : search i q with e0 | out
      · exact ⟨e0, by simp [collectOutputs, hs]⟩
      · rcases List.mem_cons.mp hp with rfl | hmem
        · rw [hs] at he
          simp at he
        · rcases ih ⟨p, hmem, e, he⟩ with ⟨e2, h2⟩
          exact ⟨e2, by simp [collectOutputs, hs, h2]⟩

theorem zip_enumFrom_map {α β : Type} (l : List α) (n : Nat) (g : Nat × α → β) :
    l.zip ((l.enumFrom n).map g) = (l.enumFrom n).map (fun p => (p.2, g p)) := by
  induction l generalizing n with
  | nil => rfl
  | cons a l ih =>
      simp only [List.enumFrom_cons, List.map_cons, List.zip_cons_cons]
      rw [ih (n + 1)]

theorem zip_enum_map {α β : Type} (l : List α) (g : Nat × α → β) :
    l.zip (l.enum.map g) = l.enum.map (fun p => (p.2, g p)) :=
  zip_enumFrom_map l 0 g

theorem mem_dictKeys_foldl_outputs {α : Type}
    (entries : List ((String × String) × α)) (a : String) :
    ∀ M, a ∈ dictKeys (entries.foldl
        (fun m e => dictInsert m e.1.1 (dictInsert (dictGetD m e.1.1 []) e.1.2 e.2)) M) ↔
      a ∈ dictKeys M ∨ ∃ e ∈ entries, e.1.1 = a := by
  induction entries with
  | nil => simp
  | cons e rest ih =>
      intro M
      rw [List.foldl_cons, ih, mem_dictKeys_dictInsert]
      simp only [List.mem_cons]
      constructor
      · rintro ((hM | ha) | ⟨x, hx, hxa⟩)
        · exact Or.inl hM
        · exact Or.inr ⟨e, Or.inl rfl, ha.symm⟩
        · exact Or.inr ⟨x, Or.inr hx, hxa⟩
      · rintro (hM | ⟨x, (rfl | hx), hxa⟩)
        · exact Or.inl (Or.inl hM)
        · exact Or.inl (Or.inr hxa.symm)
        · exact Or.inr ⟨x, hx, hxa⟩

theorem nodup_dictKeys_foldl_outputs {α : Type}
    (entries : List ((String × String) × α)) :
    ∀ M, (dictKeys M).Nodup →
      (dictKeys (entries.foldl
        (fun m e => dictInsert m e.1.1 (dictInsert (dictGetD m e.1.1 []) e.1.2 e.2)) M)).Nodup := by
  induction entries with
  | nil => exact fun M h => h
  | cons e rest ih =>
      intro M hM
      rw [List.foldl_cons]
      exact ih _ (nodup_dictKeys_dictInsert _ _ _ hM)

theorem dictGetD_foldl_outputs {α : Type}
    (entries : List ((String × String) × α)) (i : String) :
    ∀ M, dictGetD (entries.foldl
        (fun m e => dictInsert m e.1.1 (dictInsert (dictGetD m e.1.1 []) e.1.2 e.2)) M) i [] =
      ((entries.filter (fun e => e.1.1 = i)).map (fun e => (e.1.2, e.2))).foldl
        (fun m p => dictInsert m p.1 p.2) (dictGetD M i []) := by
  induction entries with
  | nil => simp
  | cons e rest ih =>
      intro M
      rw [List.foldl_cons, ih]
      by_cases he : e.1.1 = i
      · rw [List.filter_cons_of_pos (by simp [he]), List.map_cons, List.foldl_cons]
        have h1 : dictGetD (dictInsert M e.1.1 (dictInsert (dictGetD M e.1.1 []) e.1.2 e.2)) i [] =
            dictInsert (dictGetD M i []) e.1.2 e.2 := by
          subst he
          simp [dictGetD, dictFind?_dictInsert]
        rw [h1]
      · rw [List.filter_cons_of_neg (by simp [he])]
        have hne : ¬(i = e.1.1) := fun hh => he hh.symm
        have h1 : dictGetD (dictInsert M e.1.1 (dictInsert (dictGetD M e.1.1 []) e.1.2 e.2)) i [] =
            dictGetD M i [] := by
          simp [dictGetD, dictFind?_dictInsert, hne]
        rw [h1]

theorem dictFind?_eq_of_mem_nodup {β : Type} (m : List (String × β))
    (hm : (dictKeys m).Nodup) (p : String × β) (hp : p ∈ m) :
    dictFind? m p.1 = some p.2 := by
  induction m with
  | nil => cases hp
  | cons q m ih =>
      simp only [dictKeys, List.map_cons, List.nodup_cons] at hm
      rcases List.mem_cons.mp hp with rfl | hmem
      · simp [dictFind?, List.find?]
      · have hq : ¬(q.1 = p.1) := by
          intro h
          exact hm.1 (h ▸ List.mem_map_of_mem Prod.fst hmem)
        have := ih hm.2 hmem
        simp only [dictFind?] at this
        simp [dictFind?, List.find?, hq, this]

theorem foldl_outputs_single_id {α : Type} (i : String) (ps : List (String × α)) :
    ∀ acc : List (String × α),
      (ps.map (fun p => ((i, p.1), p.2))).foldl
        (fun m e => dictInsert m e.1.1 (dictInsert (dictGetD m e.1.1 []) e.1.2 e.2))
        [(i, acc)] =
      [(i, ps.foldl (fun m p => dictInsert m p.1 p.2) acc)] := by
  induction ps with
  | nil => intro acc; rfl
  | cons p rest ih =>
      intro acc
      rw [List.map_cons, List.foldl_cons, List.foldl_cons]
      have h1 : dictInsert [(i, acc)] i (dictInsert (dictGetD [(i, acc)] i []) p.1 p.2) =
          [(i, dictInsert acc p.1 p.2)] := by
        simp [dictInsert, dictGetD, dictFind?, List.find?]
      rw [h1]
      exact ih (dictInsert acc p.1 p.2)

theorem outputs_map_single_id {α : Type} (i : String) (p0 : String × α)
    (ps : List (String × α)) :
    outputs_map ((p0 :: ps).map (fun p => ((i, p.1), p.2))) =
      [(i, (p0 :: ps).foldl (fun m p => dictInsert m p.1 p.2) [])] := by
  unfold outputs_map
  rw [List.map_cons, List.foldl_cons, List.foldl_cons]
  have h0 : dictInsert [] i (dictInsert (dictGetD [] i []) p0.1 p0.2) =
      [(i, dictInsert [] p0.1 p0.2)] := by
    simp [dictInsert, dictGetD, dictFind?, List.find?]
  rw [h0]
  exact foldl_outputs_single_id i ps (dictInsert [] p0.1 p0.2)

theorem mem_dictKeys_foldl_dictInsert {β : Type} (ps : List (String × β)) (a : String) :
    ∀ m0, a ∈ dictKeys (ps.foldl (fun m p => dictInsert m p.1 p.2) m0) ↔
      a ∈ dictKeys m0 ∨ a ∈ ps.map Prod.fst := by
  induction ps with
  | nil => simp
  | cons p rest ih =>
      intro m0
      rw [List.foldl_cons, ih, mem_dictKeys_dictInsert]
      simp only [List.map_cons, List.mem_cons]
      tauto

theorem nodup_dictKeys_foldl_dictInsert {β : Type} (ps : List (String × β)) :
    ∀ m0, (dictKeys m0).Nodup →
      (dictKeys (ps.foldl (fun m p => dictInsert m p.1 p.2) m0)).Nodup := by
  induction ps with
  | nil => exact fun m0 h => h
  | cons p rest ih =>
      intro m0 hm0
      rw [List.foldl_cons]
      exact ih _ (nodup_dictKeys_dictInsert _ _ _ hm0)

theorem mem_tool_invocations_fst (calls : List ParsedCall) (a : String) :
    a ∈ (tool_invocations calls).map Prod.fst ↔
      ∃ c ∈ calls, c.id = a ∧ c.search_queries ≠ [] := by
  simp only [tool_invocations, List.mem_map, List.mem_flatMap]
  constructor
  · rintro ⟨x, ⟨c, hc, q, hq, rfl⟩, rfl⟩
    exact ⟨c, hc, rfl, List.ne_nil_of_mem hq⟩
  · rintro ⟨c, hc, rfl, hne⟩
    obtain ⟨q, hq⟩ := List.exists_mem_of_ne_nil c.search_queries hne
    exact ⟨(c.id, q), ⟨c, hc, q, hq, rfl⟩, rfl⟩

/-- With a never-failing search oracle, `execute_tools_node` returns the
messages built from `outputs_map` over the indexed invocation list. -/
theorem execute_tools_node_searchOk {α : Type} (f : Nat → String → α)
    (calls : List ParsedCall) :
    execute_tools_node (searchOk f) calls =
      .ok ((outputs_map ((tool_invocations calls).enum.map
          (fun p => (p.2, f p.1 p.2.2)))).map
        (fun p => { content := p.2, tool_call_id := p.1 })) := by
  unfold execute_tools_node
  have h1 : collectOutputs (searchOk f)
      (((tool_invocations calls).enum).map (fun p => (p.1, p.2.2))) =
      .ok (((tool_invocations calls).enum).map (fun p => f p.1 p.2.2)) := by
    rw [collectOutputs_searchOk, List.map_map]
    rfl
  rw [h1]
  show Except.ok ((outputs_map ((tool_invocations calls).zip
      (((tool_invocations calls).enum).map (fun p => f p.1 p.2.2)))).map
      (fun p => ({ content := p.2, tool_call_id := p.1 } : ToolMessageM α))) =
    Except.ok ((outputs_map ((tool_invocations calls).enum.map
      (fun p => (p.2, f p.1 p.2.2)))).map
      (fun p => ({ content := p.2, tool_call_id := p.1 } : ToolMessageM α)))
  rw [zip_enum_map]

/-- For a single proposal, the indexed entry list of `execute_tools_node` is
the per-query pair list tagged with the proposal id. -/
theorem entries_single_call {α : Type} (f : Nat → String → α) (i : String)
    (qs : List String) (n : Nat) :
    (((qs.map (fun q => (i, q))).enumFrom n).map (fun p => (p.2, f p.1 p.2.2))) =
      ((qs.enumFrom n).map (fun nq => (nq.2, f nq.1 nq.2))).map
        (fun p => ((i, p.1), p.2)) := by
  induction qs generalizing n with
  | nil => rfl
  | cons q qs ih =>
      simp only [List.map_cons, List.enumFrom_cons]
      rw [ih (n + 1)]

theorem enumFrom_map_pairs_fst {α : Type} (f : Nat → String → α)
    (qs : List String) (n : Nat) :
    ((qs.enumFrom n).map (fun nq => (nq.2, f nq.1 nq.2))).map Prod.fst = qs := by
  induction qs generalizing n with
  | nil => rfl
  | cons q qs ih => simp only [List.enumFrom_cons, List.map_cons]; rw [ih (n + 1)]

theorem enum_map_pairs_fst {α : Type} (f : Nat → String → α) (qs : List String) :
    ((qs.enum).map (fun nq => (nq.2, f nq.1 nq.2))).map Prod.fst = qs :=
  enumFrom_map_pairs_fst f qs 0

/-! Theorems for the claims -/

/-- C1: for every message-history state and every configured
`max_iterations`, the post-REVISE transition function returns `END`
(TERMINATE) iff the number of tool-result turns strictly exceeds
`max_iterations`, and routes to `execute_tools` otherwise; in particular a
count equal to `max_iterations` continues. -/
theorem C1_event_loop_threshold (max_iterations : Int) (state : List Message) :
    (event_loop max_iterations state = .END ↔
      (count_tool_visits state : Int) > max_iterations) ∧
    ((count_tool_visits state : Int) ≤ max_iterations →
      event_loop max_iterations state = .execute_tools) ∧
    ((count_tool_visits state : Int) = max_iterations →
      event_loop max_iterations state = .execute_tools) := by
  unfold event_loop
  split
  · next h => exact ⟨by simp [h], fun hle => absurd h (by omega), fun he => absurd h (by omega)⟩
  · next h => exact ⟨by simp [h], fun _ => rfl, fun _ => rfl⟩

/-- Witness for C1: with one tool turn and `max_iterations = 3` the loop
continues to `execute_tools`. -/
theorem C1_witness :
    event_loop 3 [Message.tool "r" "id0"] = Node.execute_tools :=
  (C1_event_loop_threshold 3 [Message.tool "r" "id0"]).2.1 (by decide)

/-- C10: the entry point of the compiled graph is DRAFT, the only edge out of
DRAFT goes unconditionally to EXECUTE_TOOLS, the post-REVISE transition
function only ever produces `END` or `execute_tools`, and no transition of
the graph ever leads back to DRAFT — so DRAFT executes exactly once per
run. -/
theorem C10_draft_executes_once (max_iterations : Int) (state : List Message) :
    graph_entry = .draft ∧
    graph_step max_iterations state .draft = some .execute_tools ∧
    (event_loop max_iterations state = .END ∨
      event_loop max_iterations state = .execute_tools) ∧
    (∀ n n', graph_step max_iterations state n = some n' → n' ≠ .draft) := by
  refine ⟨rfl, rfl, ?_, ?_⟩
  · unfold event_loop
    split
    · exact Or.inl rfl
    · exact Or.inr rfl
  · intro n n' h
    cases n with
    | draft => simp [graph_step] at h; simp [← h]
    | execute_tools => simp [graph_step] at h; simp [← h]
    | revise =>
        simp [graph_step] at h
        unfold event_loop at h
        split at h <;> simp [← h]
    | END => simp [graph_step] at h

/-- Witness for C10: concretely, the successor of DRAFT is EXECUTE_TOOLS,
which is not DRAFT. -/
theorem C10_witness : Node.execute_tools ≠ Node.draft :=
  (C10_draft_executes_once 0 []).2.2.2 .draft .execute_tools rfl

/-- C7: the per-invocation settings update assigns exactly the three fields
whose CLI argument is present (`getD` of the argument over the old value) and
leaves every other field — including both API credentials — unchanged. -/
theorem C7_update_settings_frame (s : Settings) (mi : Option Int)
    (mo : Option String) (mr : Option Int) :
    (update_settings s mi mo mr).MAX_ITERATIONS = mi.getD s.MAX_ITERATIONS ∧
    (update_settings s mi mo mr).MODEL_NAME = mo.getD s.MODEL_NAME ∧
    (update_settings s mi mo mr).MAX_RESULTS = mr.getD s.MAX_RESULTS ∧
    (update_settings s mi mo mr).OPENAI_API_KEY = s.OPENAI_API_KEY ∧
    (update_settings s mi mo mr).TAVILY_API_KEY = s.TAVILY_API_KEY ∧
    (update_settings s mi mo mr).LANGCHAIN_API_KEY = s.LANGCHAIN_API_KEY ∧
    (update_settings s mi mo mr).LANGCHAIN_TRACING_V2 = s.LANGCHAIN_TRACING_V2 ∧
    (update_settings s mi mo mr).LANGCHAIN_PROJECT = s.LANGCHAIN_PROJECT := by
  cases mi <;> cases mo <;> cases mr <;>
    simp [update_settings]

/-- C5: the DRAFT entry step fails with `InvalidState` exactly on the empty
sequence and on inputs that are neither a question string nor a turn list —
producing no turns — and succeeds in normalizing every other input. -/
theorem C5_draft_entry_invalid_state (inp : DraftInput) :
    ((∃ msg, draft_normalize inp = .error (.invalidState msg)) ↔
      (inp = .ofList [] ∨ inp = .other)) ∧
    (inp ≠ .ofList [] → inp ≠ .other →
      ∃ ms, draft_normalize inp = .ok ms) := by
  cases inp with
  | ofString s =>
      exact ⟨by simp [draft_normalize], fun _ _ => ⟨_, rfl⟩⟩
  | ofList l =>
      cases l with
      | nil =>
          exact ⟨by simp [draft_normalize], fun h _ => absurd rfl h⟩
      | cons a t =>
          constructor
          · constructor
            · rintro ⟨msg, hmsg⟩
              rcases h : (a :: t).getLast? with _ | e
              · simp [draft_normalize, h] at hmsg
              · cases e <;> simp [draft_normalize, h] at hmsg
            · rintro (h | h) <;> simp at h
          · intro _ _
            rcases h : (a :: t).getLast? with _ | e
            · exact ⟨a :: t, by simp [draft_normalize, h]⟩
            · cases e with
              | str s => exact ⟨[.msg (.human s)], by simp [draft_normalize, h]⟩
              | msg m => exact ⟨a :: t, by simp [draft_normalize, h]⟩
  | other =>
      exact ⟨by simp [draft_normalize], fun _ h => absurd rfl h⟩

/-- Witness for C5: a plain question string is normalized without error. -/
theorem C5_witness :
    ∃ ms, draft_normalize (.ofString "What is quantum computing?") = .ok ms :=
  (C5_draft_entry_invalid_state (.ofString "What is quantum computing?")).2
    (by decide) (by decide)

/-- C2 counterexample: a proposal with zero follow-up queries makes
EXECUTE_TOOLS return the empty message list — `outputs_map` never gains an
entry for it, so no aggregated tool-result turn (not even an empty mapping)
is appended, contradicting the claim that exactly one is. -/
theorem C2_counterexample :
    execute_tools_node (searchOk (fun i _ => i))
        [{ id := "a", search_queries := [] }] =
      .ok ([] : List (ToolMessageM Nat)) ∧
    ([] : List (ToolMessageM Nat)).length ≠ 1 :=
  ⟨rfl, by decide⟩

/-- C2 (amended): for a proposal carrying `k ≤ 3` follow-up queries,
EXECUTE_TOOLS issues exactly `k` search calls; it appends exactly one
aggregated tool-result turn when `k ≥ 1`, and no tool-result turn at all
when `k = 0`. -/
theorem C2_amended_execute_tools_turns {α : Type} (f : Nat → String → α)
    (i : String) (qs : List String) (hk : qs.length ≤ 3) :
    searchCallCount [{ id := i, search_queries := qs }] = qs.length ∧
    ∃ ts : List (ToolMessageM α),
      execute_tools_node (searchOk f) [{ id := i, search_queries := qs }] = .ok ts ∧
      ts.length = (if qs = [] then 0 else 1) := by
  refine ⟨by simp [searchCallCount, tool_invocations], ?_⟩
  rw [execute_tools_node_searchOk]
  cases qs with
  | nil => exact ⟨[], by simp [tool_invocations, outputs_map], by simp⟩
  | cons q0 qrest =>
      have hinv : tool_invocations [{ id := i, search_queries := q0 :: qrest }] =
          (q0 :: qrest).map (fun q => (i, q)) := by
        simp [tool_invocations]
      rw [hinv]
      rw [show ((q0 :: qrest).map (fun q => (i, q))).enum =
          ((q0 :: qrest).map (fun q => (i, q))).enumFrom 0 from rfl]
      rw [entries_single_call f i (q0 :: qrest) 0]
      rw [List.enumFrom_cons, List.map_cons]
      rw [outputs_map_single_id]
      exact ⟨_, rfl, by simp⟩

/-- Witness for C2: one query issues one search call and yields exactly one
aggregated tool-result turn. -/
theorem C2_witness :
    searchCallCount [{ id := "a", search_queries := ["q"] }] = 1 ∧
    ∃ ts : List (ToolMessageM Nat),
      execute_tools_node (searchOk (fun n _ => n))
          [{ id := "a", search_queries := ["q"] }] = .ok ts ∧
      ts.length = 1 := by
  rcases C2_amended_execute_tools_turns (fun n _ => n) "a" ["q"] (by decide) with
    ⟨h1, ts, h2, h3⟩
  exact ⟨h1, ts, h2, by simpa using h3⟩

/-- C8: a proposal whose `search_queries` repeats a query string issues one
search call per occurrence (`searchCallCount` counts occurrences), but the
single aggregated tool-result turn keys its mapping by distinct query string
only, each entry holding the output of the last call for that string —
results of earlier duplicate calls are dropped. -/
theorem C8_duplicate_queries_last_wins {α : Type} (f : Nat → String → α)
    (i : String) (qs : List String) (hdup : ¬ qs.Nodup) :
    searchCallCount [{ id := i, search_queries := qs }] = qs.length ∧
    ∃ inner, execute_tools_node (searchOk f) [{ id := i, search_queries := qs }] =
        .ok [{ content := inner, tool_call_id := i }] ∧
      (dictKeys inner).Nodup ∧
      (∀ q, q ∈ dictKeys inner ↔ q ∈ qs) ∧
      (∀ q, dictFind? inner q =
        ((qs.enum.filter (fun nq => nq.2 = q)).getLast?).map
          (fun nq => f nq.1 nq.2)) := by
  cases qs with
  | nil => exact absurd List.nodup_nil hdup
  | cons q0 qrest =>
      refine ⟨by simp [searchCallCount, tool_invocations], ?_⟩
      refine ⟨(((q0 :: qrest).enum).map (fun nq => (nq.2, f nq.1 nq.2))).foldl
        (fun m p => dictInsert m p.1 p.2) [], ?_, ?_, ?_, ?_⟩
      · rw [execute_tools_node_searchOk]
        have hinv : tool_invocations [{ id := i, search_queries := q0 :: qrest }] =
            (q0 :: qrest).map (fun q => (i, q)) := by
          simp [tool_invocations]
        rw [hinv]
        rw [show ((q0 :: qrest).map (fun q => (i, q))).enum =
            ((q0 :: qrest).map (fun q => (i, q))).enumFrom 0 from rfl]
        rw [entries_single_call f i (q0 :: qrest) 0]
        rw [List.enumFrom_cons, List.map_cons]
        rw [outputs_map_single_id]
        rfl
      · exact nodup_dictKeys_foldl_dictInsert _ [] (by simp [dictKeys])
      · intro q
        rw [mem_dictKeys_foldl_dictInsert]
        rw [enum_map_pairs_fst]
        simp [dictKeys]
      · intro q
        rw [dictFind?_foldl_dictInsert]
        have hnil : dictFind? ([] : List (String × α)) q = none := rfl
        rw [hnil, Option.or_none]
        have hfil : (((q0 :: qrest).enum).map
              (fun nq => (nq.2, f nq.1 nq.2))).filter (fun p => p.1 = q) =
            (((q0 :: qrest).enum).filter (fun nq => nq.2 = q)).map
              (fun nq => (nq.2, f nq.1 nq.2)) := by
          rw [List.filter_map]
          rfl
        rw [hfil, List.getLast?_map, Option.map_map]
        rfl

/-- C4: when every proposal in the batch has at least one query, the number
of tool-result turns emitted equals the number of distinct proposal
identifiers in the batch (not the number of queries); the emitted
`tool_call_id`s are exactly the batch's ids, without duplicates, and each
turn's mapping aggregates only queries issued under the id it carries. -/
theorem C4_turns_per_distinct_id {α : Type} (f : Nat → String → α)
    (calls : List ParsedCall) (h : ∀ c ∈ calls, c.search_queries ≠ []) :
    ∃ ts : List (ToolMessageM α), execute_tools_node (searchOk f) calls = .ok ts ∧
      (ts.map ToolMessageM.tool_call_id).Nodup ∧
      (∀ a, a ∈ ts.map ToolMessageM.tool_call_id ↔ a ∈ calls.map ParsedCall.id) ∧
      ts.length = (calls.map ParsedCall.id).toFinset.card ∧
      (∀ t ∈ ts, ∀ q ∈ dictKeys t.content,
        (t.tool_call_id, q) ∈ tool_invocations calls) := by
  rw [execute_tools_node_searchOk]
  set entries := ((tool_invocations calls).enum.map (fun p => (p.2, f p.1 p.2.2)))
    with hent
  set M := outputs_map entries with hM
  have hmapid : ((M.map (fun p =>
      ({ content := p.2, tool_call_id := p.1 } : ToolMessageM α))).map
        ToolMessageM.tool_call_id) = dictKeys M := by
    rw [List.map_map]; rfl
  have hnodup : (dictKeys M).Nodup := by
    rw [hM]
    exact nodup_dictKeys_foldl_outputs entries [] (by simp [dictKeys])
  have hmem : ∀ a, a ∈ dictKeys M ↔ ∃ e ∈ entries, e.1.1 = a := by
    intro a
    rw [hM]
    rw [show outputs_map entries = entries.foldl
      (fun m e => dictInsert m e.1.1 (dictInsert (dictGetD m e.1.1 []) e.1.2 e.2)) []
      from rfl]
    rw [mem_dictKeys_foldl_outputs entries a []]
    simp [dictKeys]
  have hentid : entries.map (fun e => e.1.1) = (tool_invocations calls).map Prod.fst := by
    rw [hent, List.map_map]
    show (tool_invocations calls).enum.map (fun p => p.2.1) = _
    rw [show ((tool_invocations calls).enum.map (fun p => p.2.1)) =
        ((tool_invocations calls).enum.map Prod.snd).map Prod.fst from by
      rw [List.map_map]; exact rfl]
    rw [List.enum_map_snd]
  have hiff : ∀ a, a ∈ dictKeys M ↔ a ∈ calls.map ParsedCall.id := by
    intro a
    rw [hmem a]
    constructor
    · rintro ⟨e, he, rfl⟩
      have h1 : e.1.1 ∈ entries.map (fun e => e.1.1) := List.mem_map_of_mem _ he
      rw [hentid, mem_tool_invocations_fst] at h1
      rcases h1 with ⟨c, hc, hid, _⟩
      exact hid ▸ List.mem_map_of_mem _ hc
    · intro ha
      rcases List.mem_map.mp ha with ⟨c, hc, rfl⟩
      have h1 : c.id ∈ (tool_invocations calls).map Prod.fst :=
        (mem_tool_invocations_fst calls c.id).mpr ⟨c, hc, rfl, h c hc⟩
      rw [← hentid] at h1
      rcases List.mem_map.mp h1 with ⟨e, he, hee⟩
      exact ⟨e, he, hee⟩
  refine ⟨_, rfl, ?_, ?_, ?_, ?_⟩
  · rw [hmapid]; exact hnodup
  · intro a; rw [hmapid]; exact hiff a
  · have hlen : (M.map (fun p =>
        ({ content := p.2, tool_call_id := p.1 } : ToolMessageM α))).length =
        (dictKeys M).length := by
      rw [List.length_map, dictKeys, List.length_map]
    rw [hlen, ← List.toFinset_card_of_nodup hnodup]
    congr 1
    apply Finset.ext
    intro a
    rw [List.mem_toFinset, List.mem_toFinset]
    exact hiff a
  · intro t ht q hq
    rcases List.mem_map.mp ht with ⟨p, hp, rfl⟩
    have hfind : dictFind? M p.1 = some p.2 :=
      dictFind?_eq_of_mem_nodup M hnodup p hp
    have hgetd : dictGetD M p.1 [] = p.2 := by
      rw [dictGetD, hfind]; rfl
    have hinner : p.2 = ((entries.filter (fun e => e.1.1 = p.1)).map
        (fun e => (e.1.2, e.2))).foldl (fun m pr => dictInsert m pr.1 pr.2) [] := by
      rw [← hgetd, hM]
      rw [show outputs_map entries = entries.foldl
        (fun m e => dictInsert m e.1.1 (dictInsert (dictGetD m e.1.1 []) e.1.2 e.2)) []
        from rfl]
      rw [dictGetD_foldl_outputs entries p.1 []]
      rfl
    simp only at hq
    rw [hinner, mem_dictKeys_foldl_dictInsert] at hq
    rcases hq with hq | hq
    · simp [dictKeys] at hq
    · rw [List.map_map] at hq
      rcases List.mem_map.mp hq with ⟨e, hef, heq⟩
      have hefil := List.mem_filter.mp hef
      have hid : e.1.1 = p.1 := by simpa using hefil.2
      have hfst : e.1 ∈ tool_invocations calls := by
        rcases List.mem_map.mp (hent ▸ hefil.1) with ⟨pr, hpr, rfl⟩
        show pr.2 ∈ tool_invocations calls
        rw [← List.enum_map_snd (tool_invocations calls)]
        exact List.mem_map_of_mem _ hpr
      show (p.1, q) ∈ tool_invocations calls
      rw [← hid, ← heq]
      exact hfst

/-- Invariant of the cyclic part of the graph: when the current tool-turn
count is `c ≤ max_iterations` and at least `max_iterations + 1 - c` cycles of
fuel remain, the loop performs exactly `max_iterations + 1 - c` further
revise cycles before `event_loop` chooses `END`. -/
theorem run_loop_invariant (max_iterations : Nat)
    (toolTurn reviseTurn : Nat → Message)
    (ht : ∀ n, isToolMessage (toolTurn n) = true)
    (hr : ∀ n, isToolMessage (reviseTurn n) = false) :
    ∀ (fuel : Nat) (state : List Message) (cycles : Nat),
      count_tool_visits state ≤ max_iterations →
      max_iterations + 1 - count_tool_visits state ≤ fuel →
      run_loop (max_iterations : Int) toolTurn reviseTurn fuel state cycles =
        some (cycles + (max_iterations + 1 - count_tool_visits state)) := by
  intro fuel
  induction fuel with
  | zero => intro state cycles hc hf; omega
  | succ fuel ih =>
      intro state cycles hc hf
      have hcount : count_tool_visits
          ((state ++ [toolTurn cycles]) ++ [reviseTurn cycles]) =
          count_tool_visits state + 1 := by
        unfold count_tool_visits
        rw [List.countP_append, List.countP_append]
        simp [List.countP_cons, ht cycles, hr cycles]
      by_cases hend : count_tool_visits state = max_iterations
      · have hev : event_loop (max_iterations : Int)
            ((state ++ [toolTurn cycles]) ++ [reviseTurn cycles]) = .END := by
          unfold event_loop
          rw [hcount, if_pos]
          push_cast
          omega
        simp only [run_loop]
        rw [if_pos hev]
        congr 1
        omega
      · have hlt : count_tool_visits state < max_iterations :=
          lt_of_le_of_ne hc hend
        have hev : event_loop (max_iterations : Int)
            ((state ++ [toolTurn cycles]) ++ [reviseTurn cycles]) =
            .execute_tools := by
          unfold event_loop
          rw [hcount, if_neg]
          push_cast
          omega
        simp only [run_loop]
        rw [if_neg (by rw [hev]; decide)]
        rw [ih _ (cycles + 1) (by rw [hcount]; omega) (by rw [hcount]; omega)]
        rw [hcount]
        congr 1
        omega

/-- C3: in a run of the orchestrator whose EXECUTE_TOOLS pass appends exactly
one tool-result turn per cycle (and whose REVISE pass appends a non-tool
turn), starting from a history with no tool-result turns, exactly
`max_iterations + 1` revise cycles occur; with `max_iterations = 0` that is
exactly one. -/
theorem C3_revise_cycle_count (max_iterations : Nat)
    (toolTurn reviseTurn : Nat → Message)
    (ht : ∀ n, isToolMessage (toolTurn n) = true)
    (hr : ∀ n, isToolMessage (reviseTurn n) = false)
    (state0 : List Message) (h0 : count_tool_visits state0 = 0)
    (fuel : Nat) (hfuel : max_iterations + 1 ≤ fuel) :
    run_loop (max_iterations : Int) toolTurn reviseTurn fuel state0 0 =
      some (max_iterations + 1) := by
  have h := run_loop_invariant max_iterations toolTurn reviseTurn ht hr fuel
    state0 0 (by rw [h0]; omega) (by rw [h0]; omega)
  rw [h0] at h
  simpa using h

/-- Witness for C3: with `max_iterations = 0`, starting after DRAFT from the
question turn alone, exactly one revise cycle occurs. -/
theorem C3_witness :
    run_loop (0 : Int) (fun _ => Message.tool "r" "id") (fun _ => Message.ai "a")
      1 [Message.human "q"] 0 = some 1 := by
  have h := C3_revise_cycle_count 0 (fun _ => Message.tool "r" "id")
    (fun _ => Message.ai "a") (fun _ => rfl) (fun _ => rfl)
    [Message.human "q"] rfl 1 (by omega)
  simpa using h

/-- C9: if any single search call of an EXECUTE_TOOLS pass fails, the error
propagates out of the pass unhandled: the node evaluates to that raised
error, so no tool-result turn is emitted for any proposal of the batch. -/
theorem C9_search_error_propagates {ε α : Type}
    (search : Nat → String → Except ε α) (calls : List ParsedCall)
    (h : ∃ p ∈ (tool_invocations calls).enum, ∃ e, search p.1 p.2.2 = .error e) :
    ∃ e2, execute_tools_node search calls = .error e2 := by
  have h2 : ∃ p ∈ ((tool_invocations calls).enum.map (fun p => (p.1, p.2.2))),
      ∃ e, search p.1 p.2 = .error e := by
    rcases h with ⟨p, hp, e, he⟩
    exact ⟨(p.1, p.2.2), List.mem_map_of_mem _ hp, e, he⟩
  rcases collectOutputs_error_of_mem search _ h2 with ⟨e2, he2⟩
  refine ⟨e2, ?_⟩
  unfold execute_tools_node
  rw [he2]

/-- Witness for C9: a search oracle that always fails makes the pass return
the error for a one-query batch. -/
theorem C9_witness :
    ∃ e2, execute_tools_node (fun _ _ => (Except.error "boom" : Except String Nat))
      [{ id := "a", search_queries := ["q"] }] = .error e2 := by
  refine C9_search_error_propagates _ _ ⟨(0, ("a", "q")), ?_, "boom", rfl⟩
  simp [tool_invocations]

/-- Witness for C8: the query list `[q, q]` issues two search calls and the
aggregated mapping holds one entry for `q`, carrying the second call's
output. -/
theorem C8_witness :
    searchCallCount [{ id := "a", search_queries := ["q", "q"] }] = 2 ∧
    ∃ inner, execute_tools_node (searchOk (fun n _ => n))
        [{ id := "a", search_queries := ["q", "q"] }] =
        .ok [{ content := inner, tool_call_id := "a" }] ∧
      dictFind? inner "q" = some 1 := by
  rcases C8_duplicate_queries_last_wins (fun n _ => n) "a" ["q", "q"]
    (by decide) with ⟨h1, inner, h2, _, _, h5⟩
  exact ⟨h1, inner, h2, by rw [h5 "q"]; rfl⟩

/-- Witness for C4: a batch of two proposals carrying two and one queries
respectively yields exactly two tool-result turns (one per distinct id, not
one per query). -/
theorem C4_witness :
    ∃ ts : List (ToolMessageM Nat),
      execute_tools_node (searchOk (fun n _ => n))
        [{ id := "a", search_queries := ["q1", "q2"] },
         { id := "b", search_queries := ["q3"] }] = .ok ts ∧
      ts.length = 2 := by
  rcases C4_turns_per_distinct_id (fun n _ => n)
    [{ id := "a", search_queries := ["q1", "q2"] },
     { id := "b", search_queries := ["q3"] }] (by decide) with
    ⟨ts, h1, _, _, hlen, _⟩
  refine ⟨ts, h1, ?_⟩
  rw [hlen]
  rfl

/-- C6 counterexample: the reference string `\x7b'Author'\x7d` is parsed by
`ast.literal_eval` as a one-element set — `literalEvalFragment` certifies
that value, and the string passes the brace gate — and `format_reference`
then calls `.get` on the set and raises `AttributeError` instead of
returning a rendered string or falling back to opaque text.  So presentation
formatting does not return a rendered string for every reference string. -/
theorem C6_counterexample :
    literalEvalFragment exampleSetRef = .val exampleSetVal ∧
    stripStartsWithBrace exampleSetRef = true ∧
    format_reference (fun _ => some exampleSetVal) exampleSetRef 1 =
      .error "AttributeError: set object has no attribute get" :=
  ⟨rfl, rfl, rfl⟩

/-- C6 (amended): presentation formatting renders the spec's two examples as
stated, and — for any behavior of the external `literal_eval` — it falls
back to rendering the reference as opaque text whenever the string does not
look like a dict or its structured parse fails, and it returns a rendered
string whenever the parse yields a dictionary (including dicts with
non-string values, such as `\x7b'Author': 1\x7d`); but it does not return a
rendered string for every reference string: a brace literal parsing to a
non-dictionary (a set) raises instead of falling back.  The oracle values at
the concrete strings are certified by `literalEvalFragment`, the sound
executable model of `ast.literal_eval`; a truncated literal on which
`literal_eval` certainly raises is certified to take the fallback path. -/
theorem C6_amended_reference_formatting :
    literalEvalFragment exampleStructuredRef = .val exampleStructuredVal ∧
    (∀ o : String → Option PyVal, o exampleStructuredRef = some exampleStructuredVal →
      format_reference o exampleStructuredRef 1 = .ok "[1] A - T - u (d)") ∧
    (∀ o : String → Option PyVal,
      format_reference o "some note" 1 = .ok "[1] some note") ∧
    literalEvalFragment exampleIntRef = .val exampleIntVal ∧
    (∀ o : String → Option PyVal, o exampleIntRef = some exampleIntVal →
      format_reference o exampleIntRef 1 = .ok "[1] 1 - No Title - No URL (N/A)") ∧
    literalEvalFragment exampleTruncRef = .fail ∧
    (∀ (o : String → Option PyVal) ref idx,
      (stripStartsWithBrace ref = false ∨ o ref = none) →
      format_reference o ref idx = .ok ("[" ++ toString idx ++ "] " ++ ref)) ∧
    (∀ (o : String → Option PyVal) ref idx m, parse_reference o ref = .dict m →
      ∃ out, format_reference o ref idx = .ok out) := by
  refine ⟨rfl, ?_, ?_, rfl, ?_, rfl, ?_, ?_⟩
  · intro o ho
    unfold format_reference parse_reference
    rw [ho]
    rfl
  · intro o
    rfl
  · intro o ho
    unfold format_reference parse_reference
    rw [ho]
    rfl
  · intro o ref idx h
    have hparse : parse_reference o ref = .dict [("text", ref)] := by
      unfold parse_reference
      rcases h with h | h
      · simp [h]
      · by_cases hb : stripStartsWithBrace ref
        · simp [hb, h]
        · simp [hb]
    unfold format_reference
    rw [hparse]
    rfl
  · intro o ref idx m hm
    refine ⟨format_dict_reference m ref idx, ?_⟩
    unfold format_reference
    rw [hm]

/-- Witness for C6: a plain string that does not look like a dict is rendered
as opaque text (the oracle is never consulted). -/
theorem C6_witness : format_reference (fun _ => none) "note" 2 = .ok "[2] note" :=
  C6_amended_reference_formatting.2.2.2.2.2.2.1 (fun _ => none) "note" 2 (Or.inl rfl)

end DoxAgent
